import Mathlib

/-!
Shallow embedding of the decoder-layer attention block (src/layers/attention.h) and
the LLaMA MLP block of a CPU transformer inference engine, together with theorems
checking the specification's claims about them.

Conventions: machine ints are modelled as Nat (all quantities involved are
non-negative sizes/indices) except where the source can produce a negative value,
where Int is used.  Floating-point buffers are modelled over the reals (the claims
under test are stated "exactly over the reals"), except the weight/bias copying
logic which is element-type-agnostic and modelled over the rationals so that it
evaluates.  External collaborators that are out of the repository (the matmul
helper epilogues, softmaxWithStats) are modelled from the spec, as marked on each
definition.
-/

open Finset

/-- Kernels the attention driver can dispatch to (attention.h lines 311-321). -/
inductive AttnKernel
  | flash
  | selfBF16
  | fused
deriving DecidableEq

/-- Attention::forward kernel selection (attention.h lines 311-321): at prefill
(pastSeqLen = 0) pick flashAttention when inputSeqLen exceeds the flash threshold,
selfAttentionBF16 when both the input and output element types are bfloat16,
otherwise fusedAttention; at decode (pastSeqLen > 0) always fusedAttention. -/
def chooseKernel (pastSeqLen inputSeqLen flashThresh : Nat) (inBF16 outBF16 : Bool) :
    AttnKernel :=
  if pastSeqLen = 0 then
    if flashThresh < inputSeqLen then AttnKernel.flash
    else if inBF16 && outBF16 then AttnKernel.selfBF16
    else AttnKernel.fused
  else AttnKernel.fused

/-- Attention::getTaskRange (attention.h lines 982-1008): the contiguous range of
tasks owned by rank splitIdx out of splits, over N tasks. -/
def getTaskRange (N splits splitIdx : Nat) : Nat × Nat :=
  if N % splits = 0 then
    (splitIdx * (N / splits), splitIdx * (N / splits) + N / splits)
  else if splitIdx < N % splits then
    (splitIdx * (N / splits + 1), splitIdx * (N / splits + 1) + (N / splits + 1))
  else
    ((N / splits + 1) * (N % splits) + (splitIdx - N % splits) * (N / splits),
     (N / splits + 1) * (N % splits) + (splitIdx - N % splits) * (N / splits) + N / splits)

/-- The four head-range fields established by the Attention constructor. -/
structure HeadRange where
  startQHead : Nat
  endQHead : Nat
  startKVHead : Nat
  endKVHead : Nat
deriving DecidableEq

/-- Attention::Attention (attention.h lines 46-57): Q-head range from getTaskRange,
KV-head range derived through expandFactor = attHeadNum / kvHeadNum. -/
def attnHeadRange (attHeadNum kvHeadNum numSplit splitIdx : Nat) : HeadRange :=
  { startQHead := (getTaskRange attHeadNum numSplit splitIdx).1
    endQHead := (getTaskRange attHeadNum numSplit splitIdx).2
    startKVHead := (getTaskRange attHeadNum numSplit splitIdx).1 / (attHeadNum / kvHeadNum)
    endKVHead :=
      ((getTaskRange attHeadNum numSplit splitIdx).2 - 1) / (attHeadNum / kvHeadNum) + 1 }

/-- Ceiling division on naturals, the exact-arithmetic reading of
std::ceil(1.0f * a / b) for non-negative operands. -/
def cdiv (a b : Nat) : Nat := (a + b - 1) / b

/-- L2 capacity in elements, attention.h line 420: l2CacheSize / sizeof(ImT). -/
def mbCapacity (szImT : Nat) : Nat := 2 * 1024 * 1024 / szImT

/-- The split count of Attention::getMBlockSize (attention.h lines 420-426),
before the non-positivity guard.  Float rounding of the source's
std::ceil(1.0f * x / y) is not modelled; on the small operand ranges exercised
here the float and exact ceilings agree. -/
def mbSplits (szImT S headSize : Nat) : Nat :=
  if mbCapacity szImT ≤ 2 * (S * headSize) then 1
  else cdiv (2 * (S * headSize) + S * S) (mbCapacity szImT - 2 * (S * headSize))

/-- The split count after the non-positivity guard (attention.h line 427). -/
def mbSplitsG (szImT S headSize : Nat) : Nat :=
  if mbSplits szImT S headSize = 0 then 1 else mbSplits szImT S headSize

/-- Attention::getMBlockSize (attention.h lines 409-436).  S = inputSeqLen. -/
def getMBlockSize (szImT S headSize minVal : Nat) : Nat :=
  if S = 1 then 1
  else if (S + mbSplitsG szImT S headSize - 1) / mbSplitsG szImT S headSize = 0 then
    (if minVal < S then minVal else S)
  else if S < (S + mbSplitsG szImT S headSize - 1) / mbSplitsG szImT S headSize then S
  else (S + mbSplitsG szImT S headSize - 1) / mbSplitsG szImT S headSize

/-- The claimed block-size formula, following the spec text literally:
ceil(S / splits) clamped to the interval [min 6 S, S]. -/
def specMBlockSize (szImT S headSize : Nat) : Nat :=
  max (min 6 S) (min (cdiv S (mbSplits szImT S headSize)) S)

/-- The amended block-size formula: ceil(S / splits) with the code's zero-guard on
splits and no lower clamp (the code's fallback to min(minVal,S) requires the
computed block size to be non-positive, which cannot happen). -/
def amendedMBlockSize (szImT S headSize : Nat) : Nat :=
  if S = 1 then 1
  else cdiv S (mbSplitsG szImT S headSize)

/-- The block size fusedAttention stores into ctx.reserved1 when it recomputes it
(attention.h lines 521-530): the getMBlockSize formula at prefill, inputSeqLen at
decode. -/
def fusedMBlockSizeChoice (szImT pastSeqLen S headSize : Nat) : Nat :=
  if pastSeqLen = 0 then getMBlockSize szImT S headSize 6 else S

/-- Per-thread block size nb of crossAttnShardHead (attention.h line 663). -/
def shardNb (N splits : Nat) : Nat := (N + splits - 1) / splits

/-- Column offset nOff = s * nb of shard s (attention.h line 689). -/
def shardStart (N splits s : Nat) : Nat := s * shardNb N splits

/-- Signed column count n of shard s (attention.h line 693):
nb for every shard but the last, N - nOff for the last. -/
def shardLen (N splits s : Nat) : Int :=
  if s < splits - 1 then (shardNb N splits : Int)
  else (N : Int) - (shardStart N splits s : Int)

/-- The shard length the claim states: the length of [s*nb, min ((s+1)*nb) N). -/
def claimedShardLen (N splits s : Nat) : Int :=
  min (((s : Int) + 1) * (shardNb N splits : Int)) (N : Int) - (shardStart N splits s : Int)

/-- fusedAttention's head-sharding condition (attention.h line 533):
inputSeqLen = 1 and numThreads at least twice batchSize * responsibleHeads. -/
def shardHeadCond (inputSeqLen numThreads batchSize respHeads : Nat) : Bool :=
  inputSeqLen == 1 && decide (batchSize * respHeads * 2 ≤ numThreads)

/-- The split count computed inside crossAttnShardHead (attention.h line 662). -/
def shardSplits (numThreads batchSize respHeads : Nat) : Nat :=
  numThreads / (batchSize * respHeads)

/-- Attention::setWeights merged QKV bias (attention.h lines 141-149), as a map
from destination index to copied value; none when any of the three biases is null.
Note the query slice starts at splitIdx * qResponsibleCols in the source. -/
def mergedQKVBias (attHeadNum kvHeadNum numSplit splitIdx headSize : Nat)
    (queryBias keyBias valueBias : Option (Nat → ℚ)) : Option (Nat → ℚ) :=
  match queryBias, keyBias, valueBias with
  | some qb, some kb, some vb =>
    let r := attnHeadRange attHeadNum kvHeadNum numSplit splitIdx
    let qCols := (r.endQHead - r.startQHead) * headSize
    let kvCols := (r.endKVHead - r.startKVHead) * headSize
    some (fun j =>
      if j < qCols then qb (splitIdx * qCols + j)
      else if j < qCols + kvCols then kb (r.startKVHead * headSize + (j - qCols))
      else vb (r.startKVHead * headSize + (j - (qCols + kvCols))))
  | _, _, _ => none

/-- Attention::setWeights attention-output bias (attention.h lines 169-176):
copied verbatim on rank 0, zero-filled on the other ranks. -/
def attnOutBiasOf (splitIdx : Nat) (attnOutBias : Option (Nat → ℚ)) : Option (Nat → ℚ) :=
  match attnOutBias with
  | some b => some (fun j => if splitIdx = 0 then b j else 0)
  | none => none

/-- SiLU activation over the reals. -/
noncomputable def silu (x : ℝ) : ℝ := x / (1 + Real.exp (-x))

/-- Modelled from the spec: the matmul helper's compute (spec 4.5, not under src),
exact over ℝ, as a functional matrix product contracting over the first k
columns. -/
noncomputable def mmul (k : Nat) (A B : Nat → Nat → ℝ) : Nat → Nat → ℝ :=
  fun i j => ∑ l in Finset.range k, A i l * B l j

/-- Modelled from the spec: the matmul helper's compute_silu epilogue,
C = SiLU(A * B) (spec 4.5), used by LlamaMLP::gateProj. -/
noncomputable def computeSiluMM (k : Nat) (A B : Nat → Nat → ℝ) : Nat → Nat → ℝ :=
  fun i j => silu (mmul k A B i j)

/-- Modelled from the spec: the matmul helper's compute_resmul epilogue,
C := C * (A * B) elementwise (spec 4.5), used by LlamaMLP::upProj. -/
noncomputable def computeResmulMM (k : Nat) (A B C : Nat → Nat → ℝ) : Nat → Nat → ℝ :=
  fun i j => C i j * mmul k A B i j

/-- LlamaMLP separate-GEMM path intermediate (part_000 lines 131-151):
gateProj computes SiLU(X * gateW), upProj multiplies the running buffer by
X * upW through compute_resmul. -/
noncomputable def mlpPathAIm (k : Nat) (X gateW upW : Nat → Nat → ℝ) : Nat → Nat → ℝ :=
  computeResmulMM k X upW (computeSiluMM k X gateW)

/-- LlamaMLP::catGateUpWeights column concatenation (part_000 lines 284-301):
gate columns first, up columns shifted by n. -/
def catGateUp (n : Nat) (gateW upW : Nat → Nat → ℝ) : Nat → Nat → ℝ :=
  fun l j => if j < n then gateW l j else upW l (j - n)

/-- Modelled from the spec: DecoderUtil::siluSum (decoder_util.h, not under src):
out[i][j] = SiLU(fused[i][j]) * fused[i][j + cols] (spec 4.2 step 3). -/
noncomputable def siluSum (cols : Nat) (fused : Nat → Nat → ℝ) : Nat → Nat → ℝ :=
  fun i j => silu (fused i j) * fused i (j + cols)

/-- LlamaMLP concatenated-GEMM path intermediate (part_000 lines 153-171 and
255-277): one GEMM against the concatenated weights, then siluSum. -/
noncomputable def mlpPathBIm (k n : Nat) (X gateW upW : Nat → Nat → ℝ) : Nat → Nat → ℝ :=
  siluSum n (mmul k X (catGateUp n gateW upW))

/-- Modelled from the spec: the matmul helper's compute over one rank's slice
(spec 4.5) — a functional matrix product contracting over columns [lo, hi),
one rank's partial projection when the contraction dimension is sharded. -/
noncomputable def mmulIco (lo hi : Nat) (A B : Nat → Nat → ℝ) : Nat → Nat → ℝ :=
  fun i j => ∑ l in Finset.Ico lo hi, A i l * B l j

/-- Value of an optional bias at column j (absent biases contribute 0). -/
noncomputable def optBias (b : Option (Nat → ℝ)) (j : Nat) : ℝ :=
  match b with
  | some f => f j
  | none => 0

open Classical in
/-- Attention output projection for one rank (attention.h lines 330-364): rank 0
fuses the residual, through compute_residential when getResidentialScale() = 1 and
through compute_resext with scale gamma otherwise; every other rank issues a plain
compute / compute_bias with no residual term.  The epilogue semantics
(compute C=A*B, compute_bias +bias, compute_residential +bias+R,
compute_resext +bias+gamma*R) are modelled from the spec (4.5). -/
noncomputable def attnOutProjRank (splitIdx : Nat) (gamma : ℝ) (lo hi : Nat)
    (attn W : Nat → Nat → ℝ) (bias : Option (Nat → ℝ)) (resid : Nat → Nat → ℝ) :
    Nat → Nat → ℝ :=
  if splitIdx = 0 then
    if gamma = 1 then fun i j => mmulIco lo hi attn W i j + optBias bias j + resid i j
    else fun i j => mmulIco lo hi attn W i j + optBias bias j + gamma * resid i j
  else
    fun i j => mmulIco lo hi attn W i j + optBias bias j

/-- LlamaMLP::downProj for one rank (part_000 lines 225-253): the master rank
fuses the residual through compute_residential (with null bias), other ranks issue
a plain compute.  Epilogue semantics modelled from the spec (4.5). -/
noncomputable def mlpDownProjRank (isMaster : Bool) (lo hi : Nat)
    (im downW : Nat → Nat → ℝ) (resid : Nat → Nat → ℝ) : Nat → Nat → ℝ :=
  if isMaster then fun i j => mmulIco lo hi im downW i j + resid i j
  else fun i j => mmulIco lo hi im downW i j

/-- Modelled from the spec: DecoderUtil::softmaxWithStats (decoder_util.h, not
under src) returns the shard max as its first component (spec 4.4.2 step 2):
the maximum of the scores of one shard. -/
noncomputable def shMax {T : Nat} (A : Finset (Fin T)) (h : A.Nonempty)
    (x : Fin T → ℝ) : ℝ :=
  A.sup' h x

/-- Modelled from the spec: softmaxWithStats returns, as its second component,
the sum of exponentials of the shard relative to the shard max (spec 4.4.2). -/
noncomputable def shSum {T : Nat} (A : Finset (Fin T)) (h : A.Nonempty)
    (x : Fin T → ℝ) : ℝ :=
  ∑ t in A, Real.exp (x t - shMax A h x)

/-- Modelled from the spec: one coordinate of a shard's partial output — the
shard-normalized softmax values written back by softmaxWithStats (decoder_util.h,
not under src; spec 4.4.2 states the merge is algebraically equivalent to a
single softmax, which pins the stored values as normalized by the shard sum)
multiplied with the shard's V rows by the shard-local small gemm (attention.h
lines 732-743). -/
noncomputable def shOut {T : Nat} (A : Finset (Fin T)) (h : A.Nonempty)
    (x V : Fin T → ℝ) : ℝ :=
  ∑ t in A, Real.exp (x t - shMax A h x) / shSum A h x * V t

/-- realMax of the shard-0 reduction (attention.h lines 750-758): the maximum of
the shard maxima. -/
noncomputable def mergeRealMax {T n : Nat} (hn : 0 < n)
    (shards : Fin n → Finset (Fin T)) (hne : ∀ s, (shards s).Nonempty)
    (x : Fin T → ℝ) : ℝ :=
  Finset.univ.sup' ⟨⟨0, hn⟩, Finset.mem_univ _⟩ fun s => shMax (shards s) (hne s) x

/-- revFactor of one shard (attention.h line 764): exp(shardMax - realMax). -/
noncomputable def mergeRevFactor {T n : Nat} (hn : 0 < n)
    (shards : Fin n → Finset (Fin T)) (hne : ∀ s, (shards s).Nonempty)
    (x : Fin T → ℝ) (s : Fin n) : ℝ :=
  Real.exp (shMax (shards s) (hne s) x - mergeRealMax hn shards hne x)

/-- realSum of the reduction (attention.h line 766): sum of shardSum * revFactor. -/
noncomputable def mergeRealSum {T n : Nat} (hn : 0 < n)
    (shards : Fin n → Finset (Fin T)) (hne : ∀ s, (shards s).Nonempty)
    (x : Fin T → ℝ) : ℝ :=
  ∑ s, shSum (shards s) (hne s) x * mergeRevFactor hn shards hne x s

/-- One coordinate of the reduced output (attention.h lines 769-787):
sum over shards of revFactor * (shardSum / realSum) * partial output. -/
noncomputable def mergeOut {T n : Nat} (hn : 0 < n)
    (shards : Fin n → Finset (Fin T)) (hne : ∀ s, (shards s).Nonempty)
    (x V : Fin T → ℝ) : ℝ :=
  ∑ s, mergeRevFactor hn shards hne x s
      * (shSum (shards s) (hne s) x / mergeRealSum hn shards hne x)
      * shOut (shards s) (hne s) x V

/-- One coordinate of the single unsharded softmax over all T columns followed by
multiplication with V: the reference the claim compares the reduction against. -/
noncomputable def softmaxDotV {T : Nat} (hT : 0 < T) (x V : Fin T → ℝ) : ℝ :=
  ∑ t, Real.exp (x t - Finset.univ.sup' ⟨⟨0, hT⟩, Finset.mem_univ _⟩ x)
      / (∑ u, Real.exp (x u - Finset.univ.sup' ⟨⟨0, hT⟩, Finset.mem_univ _⟩ x)) * V t

/-- The distinct caller-owned buffers touched by Attention::forward. -/
structure AttnBuffers (α : Type) where
  input : α
  imBuf : α
  qkvBuf : α
  outBuf : α
  kvKey : α
  kvValue : α
  scratch : α

/-- Attention::forward with INPUT_AS_RESID = true (attention.h lines 204-381) as a
state transformer over the caller's buffers, abstracting the kernels: the norm
writes imBuf reading input; the QKV projection and the Q/K post-op write qkvBuf;
the attention kernel writes the attnSplit region of imBuf, the two KV caches and
scratch; the output projection writes outBuf reading the attnSplit and the input
(as residual); the optional post-norm rewrites outBuf in place. -/
def attnForwardState {α : Type} (normF : α → α) (qkvProj : α → α) (qkpoF : α → α)
    (kernel : α → α → α → α → α × α × α × α) (outProj : α → α → α) (postNorm : α → α)
    (doLnBefore : Bool) (st : AttnBuffers α) : AttnBuffers α :=
  let im1 := if doLnBefore then normF st.input else st.imBuf
  let qkv1 := qkpoF (qkvProj im1)
  let k := kernel qkv1 st.kvKey st.kvValue st.scratch
  let out1 := outProj k.1 st.input
  { input := st.input
    imBuf := k.1
    qkvBuf := qkv1
    outBuf := if doLnBefore then out1 else postNorm out1
    kvKey := k.2.1
    kvValue := k.2.2.1
    scratch := k.2.2.2 }

/-- The distinct caller- and context-owned buffers touched by LlamaMLP::forward. -/
structure MLPBuffers (α : Type) where
  input : α
  normBuf : α
  imOut : α
  siluBuf : α
  outBuf : α

/-- LlamaMLP::forward (part_000 lines 108-182) as a state transformer over the
buffers, abstracting the kernels: rmsNorm writes normBuf reading input; the
gate/up (or concatenated) projections write imOut (and the silu scratch buffer on
the concatenated path); downProj writes outBuf reading the intermediate and the
input (as residual). -/
def mlpForwardState {α : Type} (doLnBefore catMLP : Bool) (rmsNormF : α → α)
    (gateUpProj : α → α) (catProj : α → α × α) (downF : α → α → α)
    (st : MLPBuffers α) : MLPBuffers α :=
  let nb := if doLnBefore then rmsNormF st.input else st.normBuf
  let src := if doLnBefore then nb else st.input
  if catMLP then
    let p := catProj src
    { st with normBuf := nb, imOut := p.1, siluBuf := p.2,
              outBuf := downF p.2 st.input }
  else
    let im := gateUpProj src
    { st with normBuf := nb, imOut := im, outBuf := downF im st.input }

/-! ### Theorems -/

/-- Claim C1: Attention::forward selects the attention kernel as follows: for every
call with pastSeqLen = 0, if inputSeqLen > flashThresh it calls flashAttention;
otherwise, if both the input type and the output type are bfloat16, it calls
selfAttentionBF16; otherwise it calls fusedAttention.  For every call with
pastSeqLen > 0 it calls fusedAttention, regardless of inputSeqLen and types. -/
theorem c1_kernel_dispatch (p S th : Nat) (iB oB : Bool) :
    (p = 0 →
      ((th < S → chooseKernel p S th iB oB = AttnKernel.flash) ∧
       (¬ th < S → iB = true → oB = true →
          chooseKernel p S th iB oB = AttnKernel.selfBF16) ∧
       (¬ th < S → ¬ (iB = true ∧ oB = true) →
          chooseKernel p S th iB oB = AttnKernel.fused))) ∧
    (0 < p → chooseKernel p S th iB oB = AttnKernel.fused) := by
  unfold chooseKernel
  constructor
  · intro hp
    subst hp
    refine ⟨fun h => by simp [h], fun h hi ho => ?_, fun h hio => ?_⟩
    · subst hi; subst ho; simp [h]
    · have : ¬ (iB && oB) = true := by
        simpa [Bool.and_eq_true] using hio
      simp [h, this]
  · intro hp
    have : ¬ p = 0 := by omega
    simp [this]

/-- Witness for C1 at concrete inputs. -/
theorem c1_kernel_dispatch_witness :
    chooseKernel 0 10 5 false false = AttnKernel.flash ∧
    chooseKernel 3 10 5 true true = AttnKernel.fused :=
  ⟨((c1_kernel_dispatch 0 10 5 false false).1 rfl).1 (by decide),
   (c1_kernel_dispatch 3 10 5 true true).2 (by decide)⟩

/-- Claim C8: fusedAttention dispatches to crossAttnShardHead exactly when
inputSeqLen = 1 and numThreads ≥ 2 * batchSize * respQHeads; under that condition
the computed splits = numThreads / (batchSize * respQHeads) is at least 2, so the
splits > 1 assertion inside crossAttnShardHead cannot fire on any path through
fusedAttention (given at least one responsible head and a positive batch, without
which the C++ split division is undefined). -/
theorem c8_shard_dispatch (S nT B H : Nat) (hBH : 0 < B * H) :
    (shardHeadCond S nT B H = true ↔ (S = 1 ∧ 2 * (B * H) ≤ nT)) ∧
    (shardHeadCond S nT B H = true → 1 < shardSplits nT B H) := by
  constructor
  · simp only [shardHeadCond, Bool.and_eq_true, beq_iff_eq, decide_eq_true_eq]
    constructor
    · rintro ⟨h1, h2⟩; exact ⟨h1, by omega⟩
    · rintro ⟨h1, h2⟩; exact ⟨h1, by omega⟩
  · intro h
    have h2 : B * H * 2 ≤ nT := by
      have := (by simpa only [shardHeadCond, Bool.and_eq_true, beq_iff_eq,
        decide_eq_true_eq] using h : S = 1 ∧ B * H * 2 ≤ nT)
      exact this.2
    have : 2 ≤ shardSplits nT B H := by
      rw [shardSplits, Nat.le_div_iff_mul_le hBH]
      omega
    omega

/-- Witness for C8 at concrete inputs. -/
theorem c8_shard_dispatch_witness :
    (shardHeadCond 1 4 1 1 = true ↔ (1 = 1 ∧ 2 * (1 * 1) ≤ 4)) ∧
    (shardHeadCond 1 4 1 1 = true → 1 < shardSplits 4 1 1) :=
  c8_shard_dispatch 1 4 1 1 (by decide)

/-- Counterexample for claim C6: at prefill with inputSeqLen = 4, headSize = 32768
and float intermediates (sizeof(ImT) = 4), the code's getMBlockSize returns 2,
while the spec formula with its clamp to [min 6 S, S] yields 4: the code never
applies the lower clamp. -/
theorem c6_counterexample :
    getMBlockSize 4 4 32768 6 = 2 ∧ specMBlockSize 4 4 32768 = 4 ∧
    fusedMBlockSizeChoice 4 0 4 32768 ≠ specMBlockSize 4 4 32768 := by decide

/-- Counterexample for claim C7: with T = 5 columns and splits = 4 shards
(reachable: a decode step with pastSeqLen = 4, inputSeqLen = 1 and
numThreads = 4 * batchSize * respQHeads), nb = 2 and the code gives shard 2 the
full nb = 2 columns [4, 6) — exceeding the valid columns [0, 5) and differing from
the claimed length of [4, min 6 5) = 1 — while the last shard's column count is
negative. -/
theorem c7_counterexample :
    shardLen 5 4 2 = 2 ∧ claimedShardLen 5 4 2 = 1 ∧
    (shardStart 5 4 2 : Int) + shardLen 5 4 2 = 6 ∧ shardLen 5 4 3 = -1 := by decide

/-- Claim C10: with INPUT_AS_RESID = true, Attention::forward only reads the input
tile (as norm input and as the residual source) and never writes it, and
LlamaMLP::forward likewise; all writes go to the intermediate, scratch, KV-cache
and output buffers, so the input field of the buffer state is unchanged for every
choice of kernel semantics. -/
theorem c10_input_only_read {α : Type} (normF qkvProj qkpoF postNorm : α → α)
    (kernel : α → α → α → α → α × α × α × α) (outProj : α → α → α)
    (doLn catMLP : Bool) (rmsNormF gateUpProj : α → α) (catProj : α → α × α)
    (downF : α → α → α) (stA : AttnBuffers α) (stM : MLPBuffers α) :
    (attnForwardState normF qkvProj qkpoF kernel outProj postNorm doLn stA).input
        = stA.input ∧
    (mlpForwardState doLn catMLP rmsNormF gateUpProj catProj downF stM).input
        = stM.input := by
  constructor
  · rfl
  · unfold mlpForwardState
    cases catMLP <;> simp

/-- Closed form of the start of a task range. -/
theorem getTaskRange_fst (N s i : Nat) :
    (getTaskRange N s i).1 = i * (N / s) + min i (N % s) := by
  unfold getTaskRange
  split_ifs with h1 h2
  · simp [h1]
  · have hm : min i (N % s) = i := Nat.min_eq_left (Nat.le_of_lt h2)
    simp only [hm]
    ring
  · obtain ⟨k, rfl⟩ := Nat.exists_eq_add_of_le (Nat.le_of_not_lt h2)
    have hm : min (N % s + k) (N % s) = N % s := Nat.min_eq_right (Nat.le_add_right _ _)
    simp only [hm, Nat.add_sub_cancel_left]
    ring

/-- Closed form of the end of a task range relative to its start. -/
theorem getTaskRange_snd (N s i : Nat) :
    (getTaskRange N s i).2
      = (getTaskRange N s i).1 + N / s + (if i < N % s then 1 else 0) := by
  unfold getTaskRange
  split_ifs <;> omega

/-- The end of one rank's task range is the start of the next rank's. -/
theorem getTaskRange_next (N s i : Nat) :
    (getTaskRange N s i).2 = (getTaskRange N s (i + 1)).1 := by
  rw [getTaskRange_snd, getTaskRange_fst, getTaskRange_fst, Nat.succ_mul]
  generalize N / s = q
  generalize N % s = r
  generalize i * q = p
  split_ifs with h <;> omega

/-- The first rank's task range starts at 0. -/
theorem getTaskRange_zero (N s : Nat) : (getTaskRange N s 0).1 = 0 := by
  rw [getTaskRange_fst]
  simp

/-- The last rank's task range ends at N. -/
theorem getTaskRange_last (N s : Nat) (hs : 0 < s) :
    (getTaskRange N s (s - 1)).2 = N := by
  rw [getTaskRange_snd, getTaskRange_fst]
  have hdm := Nat.div_add_mod N s
  have hlt := Nat.mod_lt N hs
  obtain ⟨m, rfl⟩ : ∃ m, s = m + 1 := ⟨s - 1, by omega⟩
  simp only [Nat.add_sub_cancel]
  generalize hq : N / (m + 1) = q at *
  generalize hr : N % (m + 1) = r at *
  have hmul : (m + 1) * q = m * q + q := by ring
  rw [hmul] at hdm
  generalize m * q = p at *
  split_ifs with h <;> omega

/-- Claim C5: for every attHeadNum, kvHeadNum, numSplit, splitIdx with
attHeadNum % kvHeadNum = 0, 1 ≤ numSplit and splitIdx < numSplit (and positive
head counts, without which the C++ divisions are undefined), the Attention
constructor establishes: endQHead - startQHead = attHeadNum / numSplit, plus one
for the lower-indexed ranks when attHeadNum % numSplit ≠ 0; the per-rank Q ranges
partition [0, attHeadNum) contiguously; startKVHead = startQHead * kvHeadNum /
attHeadNum in integer arithmetic; and endKVHead = (endQHead - 1) * kvHeadNum /
attHeadNum + 1 (the code computes the KV bounds through expandFactor =
attHeadNum / kvHeadNum). -/
theorem c5_head_range_invariant (A kv n i : Nat) (hdvd : A % kv = 0) (hkv : 0 < kv)
    (hA : 0 < A) (hn : 1 ≤ n) (hi : i < n) :
    ((attnHeadRange A kv n i).endQHead - (attnHeadRange A kv n i).startQHead
        = A / n + (if A % n ≠ 0 ∧ i < A % n then 1 else 0)) ∧
    ((attnHeadRange A kv n 0).startQHead = 0) ∧
    (i + 1 < n →
      (attnHeadRange A kv n i).endQHead = (attnHeadRange A kv n (i + 1)).startQHead) ∧
    ((attnHeadRange A kv n (n - 1)).endQHead = A) ∧
    ((attnHeadRange A kv n i).startKVHead
        = (attnHeadRange A kv n i).startQHead * kv / A) ∧
    ((attnHeadRange A kv n i).endKVHead
        = ((attnHeadRange A kv n i).endQHead - 1) * kv / A + 1) := by
  have hkvdvd : kv ∣ A := Nat.dvd_of_mod_eq_zero hdvd
  have hAeq : A / kv * kv = A := Nat.div_mul_cancel hkvdvd
  have hkey : ∀ m : Nat, m * kv / A = m / (A / kv) := by
    intro m
    conv_lhs => rw [← hAeq]
    exact Nat.mul_div_mul_right m (A / kv) hkv
  refine ⟨?_, ?_, ?_, ?_, ?_, ?_⟩
  · show (getTaskRange A n i).2 - (getTaskRange A n i).1 = _
    rw [getTaskRange_snd]
    generalize (getTaskRange A n i).1 = g
    generalize A % n = r
    generalize A / n = q
    split_ifs <;> omega
  · show (getTaskRange A n 0).1 = 0
    exact getTaskRange_zero A n
  · intro h
    show (getTaskRange A n i).2 = (getTaskRange A n (i + 1)).1
    exact getTaskRange_next A n i
  · show (getTaskRange A n (n - 1)).2 = A
    exact getTaskRange_last A n (by omega)
  · show (getTaskRange A n i).1 / (A / kv) = (getTaskRange A n i).1 * kv / A
    rw [hkey]
  · show ((getTaskRange A n i).2 - 1) / (A / kv) + 1
        = ((getTaskRange A n i).2 - 1) * kv / A + 1
    rw [hkey]

/-- Witness for C5 at attHeadNum = 3, kvHeadNum = 3, numSplit = 2, splitIdx = 1. -/
theorem c5_head_range_invariant_witness :
    ((attnHeadRange 3 3 2 1).endQHead - (attnHeadRange 3 3 2 1).startQHead
        = 3 / 2 + (if 3 % 2 ≠ 0 ∧ 1 < 3 % 2 then 1 else 0)) ∧
    ((attnHeadRange 3 3 2 0).startQHead = 0) ∧
    (1 + 1 < 2 →
      (attnHeadRange 3 3 2 1).endQHead = (attnHeadRange 3 3 2 (1 + 1)).startQHead) ∧
    ((attnHeadRange 3 3 2 (2 - 1)).endQHead = 3) ∧
    ((attnHeadRange 3 3 2 1).startKVHead = (attnHeadRange 3 3 2 1).startQHead * 3 / 3) ∧
    ((attnHeadRange 3 3 2 1).endKVHead
        = ((attnHeadRange 3 3 2 1).endQHead - 1) * 3 / 3 + 1) :=
  c5_head_range_invariant 3 3 2 1 (by decide) (by decide) (by decide) (by decide)
    (by decide)

/-- Claim C6 amended: the block size fusedAttention chooses when it recomputes
ctx.reserved1 is, at prefill, exactly ceil(S / splits) with splits as the spec
states it (1 when capacity ≤ 2*S*headSize, else ceil((2*S*headSize + S*S) /
(capacity - 2*S*headSize)), guarded against non-positivity) and no lower clamp:
the code's fallback to min(6, S) requires the computed block size to be 0, which
never happens, and the upper clamp to S is a no-op; for S = 1 the result is 1.
At decode (pastSeqLen > 0) the chosen block size is S. -/
theorem c6_mblock_amended (sz p S h : Nat) :
    (p = 0 → fusedMBlockSizeChoice sz p S h = amendedMBlockSize sz S h) ∧
    (0 < p → fusedMBlockSizeChoice sz p S h = S) := by
  constructor
  · intro hp
    subst hp
    show getMBlockSize sz S h 6 = amendedMBlockSize sz S h
    have hcpos : 0 < mbSplitsG sz S h := by
      unfold mbSplitsG; split_ifs <;> omega
    unfold getMBlockSize amendedMBlockSize cdiv
    by_cases hS1 : S = 1
    · simp [hS1]
    · simp only [if_neg hS1]
      by_cases hS0 : S = 0
      · subst hS0
        have hz : (mbSplitsG sz 0 h - 1) / mbSplitsG sz 0 h = 0 :=
          Nat.div_eq_of_lt (by omega)
        simp [hz]
      · have hm1 : (S + mbSplitsG sz S h - 1) / mbSplitsG sz S h ≠ 0 := by
          have : 1 ≤ (S + mbSplitsG sz S h - 1) / mbSplitsG sz S h := by
            rw [Nat.le_div_iff_mul_le hcpos]; omega
          omega
        have hm2 : ¬ S < (S + mbSplitsG sz S h - 1) / mbSplitsG sz S h := by
          have hSc : S ≤ mbSplitsG sz S h * S := Nat.le_mul_of_pos_left S hcpos
          have : (S + mbSplitsG sz S h - 1) / mbSplitsG sz S h ≤ S := by
            rw [Nat.div_le_iff_le_mul_add_pred hcpos]; omega
          omega
        simp [hm1, hm2]
  · intro hp
    unfold fusedMBlockSizeChoice
    rw [if_neg (by omega)]

/-- Witness for C6 amended: the prefill branch at the counterexample's shape and a
decode branch. -/
theorem c6_mblock_amended_witness :
    fusedMBlockSizeChoice 4 0 4 32768 = amendedMBlockSize 4 4 32768 ∧
    fusedMBlockSizeChoice 4 7 4 32768 = 4 :=
  ⟨(c6_mblock_amended 4 0 4 32768).1 rfl, (c6_mblock_amended 4 7 4 32768).2 (by decide)⟩

/-- The ceiling block size covers all N columns: N ≤ splits * nb. -/
theorem shardNb_covers (N splits : Nat) (hs : 0 < splits) :
    N ≤ splits * shardNb N splits := by
  have hdm := Nat.div_add_mod (N + splits - 1) splits
  have hmod := Nat.mod_lt (N + splits - 1) hs
  unfold shardNb
  generalize hq : (N + splits - 1) / splits = q at *
  generalize hr : (N + splits - 1) % splits = r at *
  omega

/-- Claim C7 amended: in crossAttnShardHead the shard column ranges are
[s*nb, s*nb + n) with n = nb for every shard but the last and n = T - (splits-1)*nb
for the last; they equal the claimed ranges [s*nb, min ((s+1)*nb) T) — non-negative
in length and within [0, T) — exactly when (splits-1)*nb ≤ T.  Configurations
reachable through the dispatch violate that side condition (see the
counterexample), so the proviso cannot be dropped. -/
theorem c7_shard_range_amended (N splits s : Nat) (hs : 0 < splits) (hlt : s < splits)
    (hfit : (splits - 1) * shardNb N splits ≤ N) :
    shardLen N splits s = claimedShardLen N splits s ∧
    0 ≤ shardLen N splits s ∧
    (shardStart N splits s : Int) + shardLen N splits s ≤ (N : Int) := by
  have hceil := shardNb_covers N splits hs
  by_cases hcase : s < splits - 1
  · have h1 : (s + 1) * shardNb N splits ≤ (splits - 1) * shardNb N splits :=
      Nat.mul_le_mul_right _ (by omega)
    have h2 : (s + 1) * shardNb N splits ≤ N := le_trans h1 hfit
    have h2z : ((s : Int) + 1) * (shardNb N splits : Int) ≤ (N : Int) := by
      exact_mod_cast h2
    unfold shardLen claimedShardLen shardStart
    rw [if_pos hcase, min_eq_left h2z]
    refine ⟨by push_cast; ring, by positivity, ?_⟩
    push_cast
    linarith
  · have hseq : s = splits - 1 := by omega
    have h3 : N ≤ (s + 1) * shardNb N splits := by
      have hsp : s + 1 = splits := by omega
      rw [hsp]; exact hceil
    have h3z : (N : Int) ≤ ((s : Int) + 1) * (shardNb N splits : Int) := by
      exact_mod_cast h3
    have h4 : s * shardNb N splits ≤ N := by
      rw [hseq]; exact hfit
    have h4z : ((s * shardNb N splits : Nat) : Int) ≤ (N : Int) := by
      exact_mod_cast h4
    unfold shardLen claimedShardLen shardStart
    rw [if_neg hcase, min_eq_right h3z]
    refine ⟨rfl, by omega, by omega⟩

/-- Witness for C7 amended at N = 4, splits = 2, s = 1. -/
theorem c7_shard_range_amended_witness :
    shardLen 4 2 1 = claimedShardLen 4 2 1 ∧
    0 ≤ shardLen 4 2 1 ∧
    (shardStart 4 2 1 : Int) + shardLen 4 2 1 ≤ (4 : Int) :=
  c7_shard_range_amended 4 2 1 (by decide) (by decide) (by decide)

/-- Evaluation of the merged-bias copy at the failing input of claim C9: with
attHeadNum = 3, kvHeadNum = 3, numSplit = 2, splitIdx = 1, headSize = 1 (rank 1
owns Q head 2, so startQHead * headSize = 2), the source's query-bias copy starts
at splitIdx * qResponsibleCols = 1 and the first merged entry is queryBias[1],
not queryBias[2] as the claim (and the weight slicing in the same function)
requires. -/
theorem c9_bias_offset_eval :
    (attnHeadRange 3 3 2 1).startQHead = 2 ∧
    (mergedQKVBias 3 3 2 1 1 (some fun j => (j : ℚ)) (some fun j => (j : ℚ))
        (some fun j => (j : ℚ))).map (fun f => f 0) = some 1 ∧
    (mergedQKVBias 3 3 2 1 1 (some fun j => (j : ℚ)) (some fun j => (j : ℚ))
        (some fun j => (j : ℚ))).map (fun f => f 0) ≠ some 2 := by
  refine ⟨by decide, ?_, ?_⟩ <;>
    simp [mergedQKVBias, attnHeadRange, getTaskRange]

/-- Claim C2: for every input matrix X and every weight set, the two MLP forward
paths agree exactly over the reals: the separate-GEMM path (gate = SiLU(X*gateW)
multiplied elementwise by X*upW via compute_resmul) and the concatenated path
(one GEMM against gate concatenated with up, of width 2*cols, followed by siluSum
writing out[j] = SiLU(fused[j]) * fused[j+cols]) produce the same intermediate on
the valid columns j < cols, and hence the same result after the shared down
projection — assuming the stated semantics of the matmul helper's compute,
compute_silu, compute_resmul and of siluSum. -/
theorem c2_mlp_path_equiv (k n : Nat) (X gateW upW downW : Nat → Nat → ℝ) :
    (∀ i j, j < n → mlpPathAIm k X gateW upW i j = mlpPathBIm k n X gateW upW i j) ∧
    (∀ i j, mmul n (mlpPathAIm k X gateW upW) downW i j
        = mmul n (mlpPathBIm k n X gateW upW) downW i j) := by
  have key : ∀ i j, j < n →
      mlpPathAIm k X gateW upW i j = mlpPathBIm k n X gateW upW i j := by
    intro i j hj
    have h1 : mmul k X (catGateUp n gateW upW) i j = mmul k X gateW i j := by
      unfold mmul catGateUp
      refine Finset.sum_congr rfl fun l _ => ?_
      rw [if_pos hj]
    have h2 : mmul k X (catGateUp n gateW upW) i (j + n) = mmul k X upW i j := by
      unfold mmul catGateUp
      refine Finset.sum_congr rfl fun l _ => ?_
      rw [if_neg (by omega), Nat.add_sub_cancel]
    show silu (mmul k X gateW i j) * mmul k X upW i j
        = silu (mmul k X (catGateUp n gateW upW) i j)
            * mmul k X (catGateUp n gateW upW) i (j + n)
    rw [h1, h2]
  refine ⟨key, fun i j => ?_⟩
  show (∑ l in Finset.range n, mlpPathAIm k X gateW upW i l * downW l j)
      = ∑ l in Finset.range n, mlpPathBIm k n X gateW upW i l * downW l j
  refine Finset.sum_congr rfl fun l hl => ?_
  rw [key i l (Finset.mem_range.mp hl)]

/-- Witness for C2 at a concrete one-element shape. -/
theorem c2_mlp_path_equiv_witness :
    mlpPathAIm 1 (fun _ _ => 1) (fun _ _ => 1) (fun _ _ => 1) 0 0
      = mlpPathBIm 1 1 (fun _ _ => 1) (fun _ _ => 1) (fun _ _ => 1) 0 0 :=
  (c2_mlp_path_equiv 1 1 (fun _ _ => 1) (fun _ _ => 1) (fun _ _ => 1)
    (fun _ _ => 1)).1 0 0 (by decide)

/-- Monotone chains of offsets. -/
theorem off_mono_le (off : Nat → Nat) (hmono : ∀ r, off r ≤ off (r + 1)) :
    ∀ a b : Nat, a ≤ b → off a ≤ off b := by
  intro a b h
  induction h with
  | refl => exact Nat.le_refl _
  | step _ ih => exact Nat.le_trans ih (hmono _)

/-- Summing the per-rank partial projections over a contiguous partition of the
contraction dimension gives the projection over the whole range. -/
theorem mmulIco_blocks (off : Nat → Nat) (hmono : ∀ r, off r ≤ off (r + 1))
    (A B : Nat → Nat → ℝ) (n i j : Nat) :
    ∑ r in Finset.range n, mmulIco (off r) (off (r + 1)) A B i j
      = mmulIco (off 0) (off n) A B i j := by
  induction n with
  | zero => simp [mmulIco]
  | succ m ih =>
    rw [Finset.sum_range_succ, ih]
    show (∑ l in Finset.Ico (off 0) (off m), A i l * B l j)
        + (∑ l in Finset.Ico (off m) (off (m + 1)), A i l * B l j)
        = ∑ l in Finset.Ico (off 0) (off (m + 1)), A i l * B l j
    exact Finset.sum_Ico_consecutive _ (off_mono_le off hmono 0 m (Nat.zero_le m))
      (hmono m)

/-- Projection over [0, K) is the full projection. -/
theorem mmulIco_full (K : Nat) (A B : Nat → Nat → ℝ) (i j : Nat) :
    mmulIco 0 K A B i j = mmul K A B i j := by
  unfold mmulIco mmul
  rw [Finset.range_eq_Ico]

/-- Claim C4: in every forward call of the attention layer and of the MLP the
residual is added exactly once across tensor-parallel ranks: rank 0 issues the
residual-fusing GEMM (compute_residential, or compute_resext with scale gamma)
while every other rank issues a plain GEMM (compute / compute_bias) with no
residual term, so summing the per-rank outputs over any contiguous partition of
the contraction dimension yields the full projection (plus the summed bias
contributions for attention) plus exactly one copy of the (gamma-scaled)
residual. -/
theorem c4_residual_once (n K : Nat) (hn : 0 < n) (off : Nat → Nat) (h0 : off 0 = 0)
    (hK : off n = K) (hmono : ∀ r, off r ≤ off (r + 1)) (gamma : ℝ)
    (attn W im dW : Nat → Nat → ℝ) (bias : Nat → Option (Nat → ℝ))
    (resid : Nat → Nat → ℝ) (i j : Nat) :
    (∑ r in Finset.range n, attnOutProjRank r gamma (off r) (off (r + 1)) attn W
        (bias r) resid i j
      = mmul K attn W i j + (∑ r in Finset.range n, optBias (bias r) j)
        + gamma * resid i j) ∧
    (∑ r in Finset.range n, mlpDownProjRank (r == 0) (off r) (off (r + 1)) im dW
        resid i j
      = mmul K im dW i j + resid i j) := by
  have hmem : (0 : Nat) ∈ Finset.range n := Finset.mem_range.mpr hn
  constructor
  · have hterm : ∀ r, attnOutProjRank r gamma (off r) (off (r + 1)) attn W (bias r)
        resid i j
        = mmulIco (off r) (off (r + 1)) attn W i j + optBias (bias r) j
          + (if r = 0 then gamma * resid i j else 0) := by
      intro r
      unfold attnOutProjRank
      split_ifs with h1 h2
      · subst h2; simp
      · simp [h1]
      · simp [h1]
    rw [Finset.sum_congr rfl fun r _ => hterm r]
    rw [Finset.sum_add_distrib, Finset.sum_add_distrib]
    rw [Finset.sum_ite_eq' (Finset.range n) 0 fun _ => gamma * resid i j]
    rw [if_pos hmem, mmulIco_blocks off hmono attn W n i j, h0, hK, mmulIco_full]
  · have hterm : ∀ r, mlpDownProjRank (r == 0) (off r) (off (r + 1)) im dW resid i j
        = mmulIco (off r) (off (r + 1)) im dW i j
          + (if r = 0 then resid i j else 0) := by
      intro r
      unfold mlpDownProjRank
      by_cases h1 : r = 0
      · simp [h1]
      · simp [h1]
    rw [Finset.sum_congr rfl fun r _ => hterm r]
    rw [Finset.sum_add_distrib]
    rw [Finset.sum_ite_eq' (Finset.range n) 0 fun _ => resid i j]
    rw [if_pos hmem, mmulIco_blocks off hmono im dW n i j, h0, hK, mmulIco_full]

/-- Witness for C4 with two ranks splitting a contraction dimension of 2. -/
theorem c4_residual_once_witness :
    (∑ r in Finset.range 2, attnOutProjRank r 1 (min r 2) (min (r + 1) 2)
        (fun _ _ => 1) (fun _ _ => 1) ((fun _ => none) r) (fun _ _ => 1) 0 0
      = mmul 2 (fun _ _ => 1) (fun _ _ => 1) 0 0
        + (∑ r in Finset.range 2, optBias ((fun _ => none) r) 0)
        + 1 * (fun _ _ => (1 : ℝ)) 0 0) ∧
    (∑ r in Finset.range 2, mlpDownProjRank (r == 0) (min r 2) (min (r + 1) 2)
        (fun _ _ => 1) (fun _ _ => 1) (fun _ _ => 1) 0 0
      = mmul 2 (fun _ _ => 1) (fun _ _ => 1) 0 0 + (fun _ _ => (1 : ℝ)) 0 0) :=
  c4_residual_once 2 2 (by decide) (fun r => min r 2) (by decide) (by decide)
    (fun r => min_le_min (Nat.le_succ r) (Nat.le_refl 2)) 1 (fun _ _ => 1)
    (fun _ _ => 1) (fun _ _ => 1) (fun _ _ => 1) (fun _ => none) (fun _ _ => 1) 0 0

/-- A shard's sum of exponentials is positive. -/
theorem shSum_pos {T : Nat} (A : Finset (Fin T)) (h : A.Nonempty) (x : Fin T → ℝ) :
    0 < shSum A h x :=
  Finset.sum_pos (fun t _ => Real.exp_pos _) h

/-- realMax of the reduction equals the global maximum when the shards cover all
columns. -/
theorem mergeRealMax_eq {T n : Nat} (hT : 0 < T) (hn : 0 < n)
    (shards : Fin n → Finset (Fin T)) (hne : ∀ s, (shards s).Nonempty)
    (x : Fin T → ℝ) (hcover : Finset.univ.biUnion shards = Finset.univ) :
    mergeRealMax hn shards hne x
      = Finset.univ.sup' ⟨⟨0, hT⟩, Finset.mem_univ _⟩ x := by
  unfold mergeRealMax shMax
  apply le_antisymm
  · apply Finset.sup'_le
    intro s _
    apply Finset.sup'_le
    intro t _
    exact Finset.le_sup' x (Finset.mem_univ t)
  · apply Finset.sup'_le
    intro t _
    have ht : t ∈ Finset.univ.biUnion shards := by
      rw [hcover]; exact Finset.mem_univ t
    obtain ⟨s, _, hts⟩ := Finset.mem_biUnion.mp ht
    exact le_trans (Finset.le_sup' x hts)
      (Finset.le_sup' (fun s => (shards s).sup' (hne s) x) (Finset.mem_univ s))

/-- Un-normalizing a shard: shardSum * revFactor collects the exponentials
relative to the global max. -/
theorem shard_unnorm {T n : Nat} (hn : 0 < n) (shards : Fin n → Finset (Fin T))
    (hne : ∀ s, (shards s).Nonempty) (x : Fin T → ℝ) (s : Fin n) :
    shSum (shards s) (hne s) x * mergeRevFactor hn shards hne x s
      = ∑ t in shards s, Real.exp (x t - mergeRealMax hn shards hne x) := by
  unfold shSum mergeRevFactor
  rw [Finset.sum_mul]
  refine Finset.sum_congr rfl fun t _ => ?_
  rw [← Real.exp_add]
  congr 1
  ring

/-- realSum of the reduction equals the global sum of exponentials relative to
realMax when the shards partition the columns. -/
theorem mergeRealSum_eq {T n : Nat} (hn : 0 < n)
    (shards : Fin n → Finset (Fin T)) (hne : ∀ s, (shards s).Nonempty)
    (x : Fin T → ℝ)
    (hd : Set.PairwiseDisjoint (↑(Finset.univ : Finset (Fin n))) shards)
    (hcover : Finset.univ.biUnion shards = Finset.univ) :
    mergeRealSum hn shards hne x
      = ∑ t, Real.exp (x t - mergeRealMax hn shards hne x) := by
  unfold mergeRealSum
  rw [Finset.sum_congr rfl fun s _ => shard_unnorm hn shards hne x s]
  rw [← Finset.sum_biUnion hd, hcover]

/-- Claim C3: for every partition of the key/value columns [0, T) into non-empty
shards, each shard producing (shardMax, shardSum, partial output) through
softmaxWithStats and the shard-local score-times-V product, the shard-0 reduction
of crossAttnShardHead — realMax = max of the shard maxima, revFactor =
exp(shardMax - realMax), realSum = sum of shardSum * revFactor, output = sum of
revFactor * (shardSum / realSum) * partial output — equals, exactly over the
reals and per output coordinate, the single unsharded softmax over all T columns
multiplied with V. -/
theorem c3_online_softmax_merge (T n : Nat) (hT : 0 < T) (hn : 0 < n)
    (shards : Fin n → Finset (Fin T)) (hne : ∀ s, (shards s).Nonempty)
    (hdisj : ∀ s s', s ≠ s' → Disjoint (shards s) (shards s'))
    (hcover : Finset.univ.biUnion shards = Finset.univ)
    (x V : Fin T → ℝ) :
    mergeOut hn shards hne x V = softmaxDotV hT x V := by
  have hd : Set.PairwiseDisjoint (↑(Finset.univ : Finset (Fin n))) shards :=
    fun a _ b _ hab => hdisj a b hab
  have hM := mergeRealMax_eq hT hn shards hne x hcover
  have hSum := mergeRealSum_eq hn shards hne x hd hcover
  have hshard : ∀ s, mergeRevFactor hn shards hne x s
      * (shSum (shards s) (hne s) x / mergeRealSum hn shards hne x)
      * shOut (shards s) (hne s) x V
      = ∑ t in shards s, Real.exp (x t - mergeRealMax hn shards hne x)
          / mergeRealSum hn shards hne x * V t := by
    intro s
    unfold shOut
    rw [Finset.mul_sum]
    refine Finset.sum_congr rfl fun t _ => ?_
    have hpos : shSum (shards s) (hne s) x ≠ 0 :=
      ne_of_gt (shSum_pos (shards s) (hne s) x)
    have hexp : Real.exp (shMax (shards s) (hne s) x - mergeRealMax hn shards hne x)
        * Real.exp (x t - shMax (shards s) (hne s) x)
        = Real.exp (x t - mergeRealMax hn shards hne x) := by
      rw [← Real.exp_add]
      congr 1
      ring
    unfold mergeRevFactor
    set a := Real.exp (shMax (shards s) (hne s) x - mergeRealMax hn shards hne x)
    set b := shSum (shards s) (hne s) x
    set R := mergeRealSum hn shards hne x
    set e := Real.exp (x t - shMax (shards s) (hne s) x)
    set E := Real.exp (x t - mergeRealMax hn shards hne x)
    calc a * (b / R) * (e / b * V t) = a * e * V t / R * (b / b) := by ring
      _ = a * e * V t / R := by rw [div_self hpos, mul_one]
      _ = E * V t / R := by rw [hexp]
      _ = E / R * V t := by ring
  unfold mergeOut
  rw [Finset.sum_congr rfl fun s _ => hshard s]
  rw [← Finset.sum_biUnion hd, hcover]
  have hR : mergeRealSum hn shards hne x
      = ∑ u, Real.exp (x u - Finset.univ.sup' ⟨⟨0, hT⟩, Finset.mem_univ _⟩ x) := by
    rw [hSum]
    exact Finset.sum_congr rfl fun u _ => by rw [hM]
  unfold softmaxDotV
  exact Finset.sum_congr rfl fun t _ => by rw [hM, hR]

/-- Witness for C3: two singleton shards over two columns. -/
theorem c3_online_softmax_merge_witness :
    mergeOut (show (0 : Nat) < 2 by decide) (fun s : Fin 2 => {s})
        (fun s => Finset.singleton_nonempty s) (fun _ => 0) (fun _ => 1)
      = softmaxDotV (show (0 : Nat) < 2 by decide) (fun _ => 0) (fun _ => 1) :=
  c3_online_softmax_merge 2 2 (by decide) (by decide) (fun s => {s})
    (fun s => Finset.singleton_nonempty s)
    (fun s s' h => Finset.disjoint_singleton.mpr h)
    (by decide) (fun _ => 0) (fun _ => 1)
